import Mathlib

/-!
Shallow embedding of the ruin subsystem of the vrp repository:
the Adjusted String Removal (SISR) strategy
(src/core/src/refinement/ruin/adjusted_string_removal.rs) and the
Worst-Job Removal strategy
(src/vrp-core/src/solver/mutation/ruin/worst_jobs_removal.rs),
together with the parts of the solution model they consume.

Modelling conventions:
* Jobs and actors are identity-compared reference-counted handles in the
  source; they are modelled as natural-number identifiers.
* The external Random service (uniform_int / uniform_real inclusive-bounds
  sampling, coin flip; see the spec, section 6) is modelled as a single
  logical stream of rational draws in [0,1), indexed by a counter that is
  threaded through every decision point in source order.  f64 arithmetic is
  modelled over the rationals.
* The thread-local RNG that `rand::thread_rng()` provides is modelled as an
  extra input: a list of indices used to reorder a list (the only use the
  source makes of it is the route shuffle in WorstJobRemoval::run).
* Rust HashSet bookkeeping (removed jobs, touched actors) is modelled as a
  duplicate-free list in insertion order; a HashMap keyed by jobs built by
  successive insertion is modelled by a last-insertion-wins lookup.
* The panic in get_routes_cost_savings ("Unexpected activity without job")
  is modelled by returning none from the whole run.
-/

/- Batteries marks the rational operations irreducible, which blocks
kernel-style evaluation of concrete program runs; restore the ordinary
reducibility so that `decide` can evaluate the embedding. -/
attribute [local semireducible] Rat.mul Rat.add Rat.sub Rat.inv

namespace VrpRuin

abbrev Job := ℕ
abbrev ActorId := ℕ

/-- An activity of a tour: an optional bound job, a location
(`place.location`) and a departure time (`schedule.departure`). -/
structure Activity where
  job : Option Job
  loc : ℤ
  dep : ℚ
deriving DecidableEq

/-- A tour: position 0 is the start activity, positions 1.. are the
remaining activities (job activities and possibly a job-less terminal).
`activity_count` in the source counts the positions after the start:
select_random_job draws an index in [1, size] and wraps modulo size+1. -/
structure Tour where
  start : Activity
  rest : List Activity
deriving DecidableEq

def Tour.activityCount (t : Tour) : ℕ := t.rest.length

/-- Random access by position: `tour.get(i)`. -/
def Tour.get (t : Tour) (i : ℕ) : Option Activity :=
  if i = 0 then some t.start else t.rest.get? (i - 1)

/-- `tour.get(i).and_then(|a| a.retrieve_job())`. -/
def Tour.jobAt (t : Tour) (i : ℕ) : Option Job :=
  (t.get i).bind (fun a => a.job)

/-- The jobs bound to activities of the tour (`tour.jobs()`), with
multiplicity, in tour order. -/
def Tour.jobs (t : Tour) : List Job :=
  (t.start :: t.rest).filterMap (fun a => a.job)

def Tour.hasJobs (t : Tour) : Bool := !t.jobs.isEmpty

/-- `tour.index(&job)`: position of the first activity bound to the job. -/
def Tour.index (t : Tour) (j : Job) : Option ℕ :=
  (t.start :: t.rest).findIdx? (fun a => a.job = some j)

/-- `tour.remove(&job)`: detaches the activities bound to the job (the
start activity is never removed) and reports whether anything was removed. -/
def Tour.removeJob (t : Tour) (j : Job) : Tour × Bool :=
  (⟨t.start, t.rest.filter (fun a => a.job ≠ some j)⟩,
   t.rest.any (fun a => a.job = some j))

/-- A route: one actor (with its vehicle profile) paired with one tour.
RouteContext clones share the underlying route; mutation through any
handle is visible through all (see the NOTE in WorstJobRemoval::run), so a
route is identified by its index in the solution here. -/
structure Route where
  actor : ActorId
  profile : ℕ
  tour : Tour
deriving DecidableEq

/-- The solution context: route list plus the three job pools.
`unassigned` keeps only the keys of the source map. -/
structure SolutionCtx where
  routes : List Route
  required : List Job
  locked : List Job
  unassigned : List Job
deriving DecidableEq

/-- The problem services consumed by ruin: the neighbour query
(profile and seed job to proximity-ordered finite job sequence) and the
transport cost function `cost(actor, from, to, departure)`. -/
structure Problem where
  neighbors : ℕ → Job → List Job
  cost : ActorId → ℤ → ℤ → ℚ → ℚ

/-- The Random service: one logical stream of draws.  `vals k` is the raw
k-th draw; it is clamped into [0,1) so that every derived sample is in
range for arbitrary streams. -/
structure Rng where
  vals : ℕ → ℚ

def Rng.frac (r : Rng) (k : ℕ) : ℚ :=
  let q := r.vals k
  if 0 ≤ q ∧ q < 1 then q else 0

/-- `random.uniform_real(lo, hi)`: a draw in [lo, hi). -/
def uniformReal (r : Rng) (k : ℕ) (lo hi : ℚ) : ℚ :=
  lo + r.frac k * (hi - lo)

/-- `random.uniform_int(lo, hi)`: inclusive-bounds integer draw. -/
def uniformInt (r : Rng) (k : ℕ) (lo hi : ℤ) : ℤ :=
  if hi < lo then lo else lo + ⌊r.frac k * ((hi : ℚ) - lo + 1)⌋

/-- `random.is_head_not_tails()`. -/
def coinHeads (r : Rng) (k : ℕ) : Bool := decide (r.frac k < 1 / 2)

/-- HashSet insertion, modelled as append-if-absent on a
duplicate-free list. -/
def insertNew (x : ℕ) (l : List ℕ) : List ℕ :=
  if x ∈ l then l else l ++ [x]

/-! ### Adjusted String Removal (SISR) -/

/-- AdjustedStringRemoval configuration: `lmax`, `cavg`, `alpha`
(defaults 30, 15, 0.01). -/
structure AsrCfg where
  lmax : ℕ
  cavg : ℕ
  alpha : ℚ

def AsrCfg.default : AsrCfg := ⟨30, 15, 1 / 100⟩

/-- `calculate_average_tour_cardinality`: mean tour activity count,
rounded to the nearest integral value.  (For an empty route list the f64
code produces NaN and the whole call is a no-op; the rational model
produces 0 there, also a no-op.) -/
def averageTourCardinality (routes : List Route) : ℤ :=
  round (((routes.map (fun r => (r.tour.activityCount : ℚ))).sum) / (routes.length : ℚ))

/-- `AdjustedStringRemoval::calculate_limits`: equations 5-7 of the SISR
paper.  Returns (lsmax, ks) and the advanced draw counter. -/
def calculateLimits (cfg : AsrCfg) (routes : List Route) (rng : Rng) (k : ℕ) :
    (ℕ × ℕ) × ℕ :=
  let lsmaxZ : ℤ := min (averageTourCardinality routes) (cfg.lmax : ℤ)
  let ksmax : ℚ := 4 * (cfg.cavg : ℚ) / (1 + (lsmaxZ : ℚ)) - 1
  let ks : ℕ := (⌊uniformReal rng k 1 (ksmax + 1)⌋).toNat
  ((lsmaxZ.toNat, ks), k + 1)

/-- `select_random_job`: draw a position in [1, size], then scan forward
with wrap-around modulo size+1 until an activity bound to a job is found. -/
def selectRandomJob (r : Route) (rng : Rng) (k : ℕ) : Option Job × ℕ :=
  let size := r.tour.activityCount
  if size = 0 then (none, k)
  else
    let a0 := (uniformInt rng k 1 (size : ℤ)).toNat
    ((List.range (size + 1)).findSome? (fun t => r.tour.jobAt ((a0 + t) % (size + 1))),
     k + 1)

/-- The scan of `select_seed_job`: starting at route r0, try each route in
order with wrap-around (one full cycle); a route with jobs costs one draw. -/
def seedScan (routes : List Route) (rng : Rng) (r0 : ℕ) :
    List ℕ → ℕ → Option (ℕ × Job) × ℕ
  | [], k => (none, k)
  | t :: ts, k =>
    let ri := (r0 + t) % routes.length
    match routes.get? ri with
    | none => (none, k)
    | some r =>
      if r.tour.hasJobs then
        match selectRandomJob r rng k with
        | (some j, kj) => (some (ri, j), kj)
        | (none, kj) => seedScan routes rng r0 ts kj
      else seedScan routes rng r0 ts k

/-- `select_seed_job`: pick a uniformly random route index, then scan
forward with wrap-around for a route with at least one job. -/
def selectSeedJob (routes : List Route) (rng : Rng) (k : ℕ) :
    Option (ℕ × Job) × ℕ :=
  if routes.length = 0 then (none, k)
  else
    let r0 := (uniformInt rng k 0 ((routes.length : ℤ) - 1)).toNat
    seedScan routes rng r0 (List.range routes.length) (k + 1)

/-- `select_seed_jobs`: the candidate sequence, i.e. the seed job followed
by its neighbour sequence by the seed route profile, unbounded distance. -/
def selectSeedJobs (p : Problem) (routes : List Route) (rng : Rng) (k : ℕ) :
    List Job × ℕ :=
  match selectSeedJob routes rng k with
  | (some (ri, j), kj) =>
    match routes.get? ri with
    | some r => (j :: p.neighbors r.profile j, kj)
    | none => ([], kj)
  | (none, kj) => ([], kj)

/-- `lower_bounds`: range of possible string start positions
(i32 arithmetic in the source; exact over ℤ). -/
def lowerBounds (stringCrd tourCrd index : ℕ) : ℤ × ℤ :=
  let s : ℤ := stringCrd
  let t : ℤ := tourCrd
  let i : ℤ := index
  let b := max (i - s) 1
  let e := max (min (i + s) (t - s)) b
  (b, e)

/-- `sequential_string`: a contiguous block of `cardinality` positions
whose start is drawn from `lower_bounds`; collects the bound jobs. -/
def sequentialString (t : Tour) (index cardinality : ℕ) (rng : Rng) (k : ℕ) :
    List Job × ℕ :=
  let be := lowerBounds cardinality t.activityCount index
  let start := (uniformInt rng k be.1 be.2).toNat
  ((List.range cardinality).filterMap (fun off => t.jobAt (start + off)), k + 1)

/-- The growth loop of `preserved_cardinality`: while
stringCrd + p < tourCrd, stop with probability alpha, else increment p.
The fuel bounds the iteration count; tourCrd iterations always suffice
because p strictly increases towards tourCrd - stringCrd. -/
def presGo (alpha : ℚ) (rng : Rng) (stringCrd tourCrd : ℕ) :
    ℕ → ℕ → ℕ → ℕ × ℕ
  | p, k, 0 => (p, k)
  | p, k, fuel + 1 =>
    if stringCrd + p < tourCrd then
      if rng.frac k < alpha then (p, k + 1)
      else presGo alpha rng stringCrd tourCrd (p + 1) (k + 1) fuel
    else (p, k)

/-- `preserved_cardinality`: 0 when the string already covers the whole
tour, otherwise the geometric growth loop starting at 1. -/
def preservedCardinality (stringCrd tourCrd : ℕ) (alpha : ℚ) (rng : Rng) (k : ℕ) :
    ℕ × ℕ :=
  if stringCrd = tourCrd then (0, k)
  else presGo alpha rng stringCrd tourCrd 1 k tourCrd

/-- `preserved_string`: a window of cardinality + split positions with an
interior preserved sub-block carved out; the seed position is always
collected even when it falls inside the preserved sub-block. -/
def preservedString (t : Tour) (index cardinality : ℕ) (alpha : ℚ) (rng : Rng)
    (k : ℕ) : List Job × ℕ :=
  let size := t.activityCount
  let sp := preservedCardinality cardinality size alpha rng k
  let splitSize := sp.1
  let k1 := sp.2
  let total := cardinality + splitSize
  let be := lowerBounds total size index
  let startTotal := (uniformInt rng k1 be.1 be.2).toNat
  let splitStart :=
    (uniformInt rng (k1 + 1) (startTotal : ℤ) ((startTotal : ℤ) + (cardinality : ℤ) - 1)).toNat
  let splitEnd := splitStart + splitSize
  let total2 := total - (if splitStart ≤ index ∧ index < splitEnd then 1 else 0)
  (((List.range total2).map (fun off => startTotal + off)).filter
      (fun i => i < splitStart ∨ splitEnd ≤ i ∨ i = index)
    |>.filterMap (fun i => t.jobAt i),
   k1 + 2)

/-- `select_string`: coin flip between the sequential and the preserved
sub-strategy. -/
def selectString (t : Tour) (index cardinality : ℕ) (alpha : ℚ) (rng : Rng)
    (k : ℕ) : List Job × ℕ :=
  if coinHeads rng k then sequentialString t index cardinality rng (k + 1)
  else preservedString t index cardinality alpha rng (k + 1)

/-- The mutable state of one AdjustedStringRemoval::run call: current
routes, removed-job set, touched-actor set, draw counter. -/
structure AsrState where
  routes : List Route
  removed : List Job
  touched : List ActorId
  k : ℕ

/-- One removal inside the string-removal loop:
`rc.route_mut().tour.remove(&job); jobs.insert(job);` on route `ri`
(insertion happens whether or not the tour still held the job). -/
def removeStep (ri : ℕ) (acc : List Route × List Job) (j : Job) :
    List Route × List Job :=
  match acc.1.get? ri with
  | none => acc
  | some r =>
    (acc.1.set ri { r with tour := (r.tour.removeJob j).1 },
     insertNew j acc.2)

/-- The inner removal loop of a processed candidate: remove each selected
job from the tour of route `ri` and insert it into the removed set. -/
def removeStringFromRoute (ri : ℕ) (toRemove : List Job)
    (routes : List Route) (removed : List Job) : List Route × List Job :=
  toRemove.foldl (removeStep ri) (routes, removed)

/-- Processing of one candidate job inside AdjustedStringRemoval::run:
find the first untouched route containing it, draw the string cardinality,
mark the actor touched, select the string, drop locked jobs, remove. -/
def processCandidate (lsmax : ℕ) (alpha : ℚ) (locked : List Job) (rng : Rng)
    (st : AsrState) (j : Job) : AsrState :=
  match st.routes.findIdx?
      (fun r => !(st.touched.contains r.actor) && (r.tour.index j).isSome) with
  | none => st
  | some ri =>
    match st.routes.get? ri with
    | none => st
    | some r =>
      let ltmax := min r.tour.activityCount lsmax
      let lt := (⌊uniformReal rng st.k 1 ((ltmax : ℚ) + 1)⌋).toNat
      let k1 := st.k + 1
      match r.tour.index j with
      | none => { st with k := k1 }
      | some idx =>
        let touched1 := insertNew r.actor st.touched
        let sk := selectString r.tour idx lt alpha rng k1
        let toRemove := sk.1.filter (fun x => !(locked.contains x))
        let rr := removeStringFromRoute ri toRemove st.routes st.removed
        { routes := rr.1, removed := rr.2, touched := touched1, k := sk.2 }

/-- The candidate loop of AdjustedStringRemoval::run: skip candidates
already removed (without consuming the stop check), stop once ks distinct
actors have been touched, else process. -/
def asrGo (lsmax ks : ℕ) (alpha : ℚ) (locked : List Job) (rng : Rng) :
    List Job → AsrState → AsrState
  | [], st => st
  | j :: rest, st =>
    if j ∈ st.removed then asrGo lsmax ks alpha locked rng rest st
    else if st.touched.length = ks then st
    else
      asrGo lsmax ks alpha locked rng rest
        (processCandidate lsmax alpha locked rng st j)

/-- The candidate list and initial state of one run (limits draw, then
seed-job draws, then the candidate sequence). -/
def asrSetup (cfg : AsrCfg) (p : Problem) (s : SolutionCtx) (rng : Rng) :
    (ℕ × ℕ) × List Job × ℕ :=
  let lim := calculateLimits cfg s.routes rng 0
  let cand := selectSeedJobs p s.routes rng lim.2
  (lim.1, cand.1, cand.2)

/-- The final state of AdjustedStringRemoval::run. -/
def asrFinal (cfg : AsrCfg) (p : Problem) (s : SolutionCtx) (rng : Rng) : AsrState :=
  let su := asrSetup cfg p s rng
  asrGo su.1.1 su.1.2 cfg.alpha s.locked rng su.2.1 ⟨s.routes, [], [], su.2.2⟩

/-- `AdjustedStringRemoval::run`.  Returns the transformed solution (the
removed jobs are appended to `required`) together with the removed-job
set.  The `_trng` argument models the thread-local RNG that is available
to every strategy; this strategy never draws from it. -/
def asrRun (cfg : AsrCfg) (p : Problem) (s : SolutionCtx) (rng : Rng)
    (_trng : List ℕ) : SolutionCtx × List Job :=
  let st := asrFinal cfg p s rng
  ({ s with routes := st.routes, required := s.required ++ st.removed },
   st.removed)

/-! ### Worst-Job Removal -/

/-- WorstJobRemoval configuration (defaults 32, 4, 1, 4 for threshold,
worst_skip, min, max). -/
structure WjrCfg where
  jmin : ℕ
  jmax : ℕ
  threshold : ℕ
  worstSkip : ℕ
deriving DecidableEq

def WjrCfg.defaultCfg : WjrCfg := ⟨1, 4, 32, 4⟩

/-- `WorstJobRemoval::new(threshold, worst_skip, min, max)`: the
constructor asserts min <= max; a failed assertion is modelled as none. -/
def WjrCfg.new (threshold worstSkip jmin jmax : ℕ) : Option WjrCfg :=
  if jmin ≤ jmax then some ⟨jmin, jmax, threshold, worstSkip⟩ else none

/-- `can_remove_job`: not locked and not unassigned.  Captures the pools
of the starting solution; neither pool changes during the call. -/
def canRemoveJob (s : SolutionCtx) (j : Job) : Bool :=
  !(s.locked.contains j) && !(s.unassigned.contains j)

/-- `get_route_jobs`: the HashMap from job to containing route built by
inserting every route in order (a later route overwrites an earlier one),
modelled as the index of the last route whose tour holds the job. -/
def routeJobsIdx (routes : List Route) (j : Job) : Option ℕ :=
  (List.range routes.length).foldl
    (fun acc i =>
      match routes.get? i with
      | some r => if j ∈ r.tour.jobs then some i else acc
      | none => acc)
    none

/-- The sliding windows of three consecutive activities
(`all_activities().as_slice().windows(3)`). -/
def windows3 : List Activity → List (Activity × Activity × Activity)
  | a :: b :: c :: rest => (a, b, c) :: windows3 (b :: c :: rest)
  | _ => []

/-- `get_cost`: transport cost from one activity to the next, departing at
the schedule departure of the first. -/
def getCost (p : Problem) (actor : ActorId) (a b : Activity) : ℚ :=
  p.cost actor a.loc b.loc a.dep

/-- `get_cost_savings` for a window (prev, job, next). -/
def getCostSavings (p : Problem) (actor : ActorId) (a b c : Activity) : ℚ :=
  getCost p actor a b + getCost p actor b c - getCost p actor a c

/-- Accumulation of a savings entry into the per-job map, modelled as an
association list in first-encounter order. -/
def upsert (j : Job) (v : ℚ) : List (Job × ℚ) → List (Job × ℚ)
  | [] => [(j, v)]
  | (j2, v2) :: rest =>
    if j = j2 then (j2, v2 + v) :: rest else (j2, v2) :: upsert j v rest

/-- Stable insertion for the descending sort of savings entries
(`sort_by(|(_, a), (_, b)| b.partial_cmp(a).unwrap_or(Less))`): an earlier
entry stays before later entries of equal cost. -/
def insertDesc (x : Job × ℚ) : List (Job × ℚ) → List (Job × ℚ)
  | [] => [x]
  | y :: ys => if y.2 ≤ x.2 then x :: y :: ys else y :: insertDesc x ys

def sortSavingsDesc : List (Job × ℚ) → List (Job × ℚ)
  | [] => []
  | x :: xs => insertDesc x (sortSavingsDesc xs)

/-- Per-route cost savings: fold the 3-windows of the activity list,
accumulating savings per middle job; a window whose middle activity has no
bound job hits the source panic ("Unexpected activity without job"),
modelled as none.  The result is sorted descending by savings. -/
def routeSavings (p : Problem) (r : Route) : Option (List (Job × ℚ)) :=
  ((windows3 (r.tour.start :: r.tour.rest)).foldl
      (fun acc w =>
        match acc, w.2.1.job with
        | some m, some j =>
          some (upsert j (getCostSavings p r.actor w.1 w.2.1 w.2.2) m)
        | _, _ => none)
      (some [])).map sortSavingsDesc

/-- `get_routes_cost_savings` over the indexed route list. -/
def savingsList (p : Problem) : List (ℕ × Route) → Option (List (ℕ × List (Job × ℚ)))
  | [] => some []
  | (i, r) :: rest =>
    match routeSavings p r, savingsList p rest with
    | some sv, some tl => some ((i, sv) :: tl)
    | _, _ => none

/-- The `routes_savings.shuffle(&mut rand::thread_rng())` call: the
thread-local RNG determines a reordering of the list, modelled by the list
of positions it realizes. -/
def applyPerm {α : Type} (l : List α) (perm : List ℕ) : List α :=
  perm.filterMap l.get?

/-- `savings.iter().filter(|(job, _)| can_remove_job(job)).nth(skip)`:
the skip is applied after filtering to removable entries. -/
def worstPick (savings : List (Job × ℚ)) (canRem : Job → Bool) (skip : ℕ) :
    Option (Job × ℚ) :=
  (savings.filter (fun jc => canRem jc.1)).get? skip

/-- The mutable state of one WorstJobRemoval::run call. -/
structure WjrState where
  routes : List Route
  removed : List Job
  k : ℕ

/-- One removal of the seed-and-neighbours chain: look the job up in the
pre-computed route index (a job absent from the index is skipped — the
source NOTE: the job can be absent if it is unassigned), remove it from
that route, and record it only when the tour still held it. -/
def wjrChainStep (rjIdx : Job → Option ℕ) (st : WjrState) (j : Job) : WjrState :=
  match rjIdx j with
  | none => st
  | some i =>
    match st.routes.get? i with
    | none => st
    | some r =>
      let tb := r.tour.removeJob j
      { st with
        routes := st.routes.set i { r with tour := tb.1 },
        removed := if tb.2 then insertNew j st.removed else st.removed }

/-- Removal of the whole seed-and-neighbours chain. -/
def wjrRemoveChain (rjIdx : Job → Option ℕ) (chain : List Job)
    (st : WjrState) : WjrState :=
  chain.foldl (wjrChainStep rjIdx) st

/-- Processing of one (route, savings) pair in WorstJobRemoval::run:
draw the skip, pick the worst removable entry, draw the removal budget,
and remove the first `budget` removable jobs of the seed-and-neighbours
chain. -/
def wjrStep (cfg : WjrCfg) (p : Problem) (canRem : Job → Bool)
    (rjIdx : Job → Option ℕ) (rng : Rng) (profile : ℕ)
    (savings : List (Job × ℚ)) (st : WjrState) : WjrState :=
  let skip := Nat.min savings.length (uniformInt rng st.k 0 (cfg.worstSkip : ℤ)).toNat
  let k1 := st.k + 1
  match worstPick savings canRem skip with
  | none => { st with k := k1 }
  | some (j, _) =>
    let budget := (uniformInt rng k1 (cfg.jmin : ℤ) (cfg.jmax : ℤ)).toNat
    let chain := ((j :: p.neighbors profile j).filter canRem).take budget
    wjrRemoveChain rjIdx chain { st with k := k1 + 1 }

/-- The shuffled-savings loop of WorstJobRemoval::run, stopping before a
pair once the removed count exceeds the threshold. -/
def wjrGo (cfg : WjrCfg) (p : Problem) (canRem : Job → Bool)
    (rjIdx : Job → Option ℕ) (rng : Rng) (routes0 : List Route) :
    List (ℕ × List (Job × ℚ)) → WjrState → WjrState
  | [], st => st
  | (i, sv) :: rest, st =>
    if st.removed.length ≤ cfg.threshold then
      let profile := ((routes0.get? i).map Route.profile).getD 0
      wjrGo cfg p canRem rjIdx rng routes0 rest
        (wjrStep cfg p canRem rjIdx rng profile sv st)
    else st

/-- `WorstJobRemoval::run`.  `trngPerm` is the reordering realized by the
`rand::thread_rng()` shuffle of the (route, savings) list; every other
random decision draws from the Random service stream.  Returns none when
the savings computation panics. -/
def wjrRun (cfg : WjrCfg) (p : Problem) (s : SolutionCtx) (rng : Rng)
    (trngPerm : List ℕ) : Option (SolutionCtx × List Job) :=
  match savingsList p s.routes.enum with
  | none => none
  | some sv =>
    let shuffled := applyPerm sv trngPerm
    let st := wjrGo cfg p (canRemoveJob s) (routeJobsIdx s.routes) rng s.routes
      shuffled ⟨s.routes, [], 0⟩
    some ({ s with routes := st.routes, required := s.required ++ st.removed },
          st.removed)

/-! ### Semantic predicates used by the claims -/

/-- The jobs of the route at a given index (empty when out of range). -/
def routeJobsAt (routes : List Route) (i : ℕ) : List Job :=
  match routes.get? i with
  | some r => r.tour.jobs
  | none => []

/-- Data-model invariant 1, route part: a job sits in at most one route. -/
def UniqueAssign (routes : List Route) : Prop :=
  ∀ x i1 i2, x ∈ routeJobsAt routes i1 → x ∈ routeJobsAt routes i2 → i1 = i2

/-- Route-wise monotone shrinking of tour contents. -/
def Shrinks (r0 r1 : List Route) : Prop :=
  ∀ i, ∀ x, x ∈ routeJobsAt r1 i → x ∈ routeJobsAt r0 i

/-- Data-model invariant 4: the start activity carries no job. -/
def StartsJobless (routes : List Route) : Prop :=
  ∀ i r, routes.get? i = some r → r.tour.start.job = none

/-- A job is assigned inside some tour. -/
def inTours (x : Job) (routes : List Route) : Prop :=
  ∃ i, x ∈ routeJobsAt routes i

/-- Occurrence counts of a job across the routes, position by position
(the tour content a locked job must keep through a ruin call). -/
def routeJobCounts (j : Job) (routes : List Route) : List ℕ :=
  routes.map (fun r => (r.tour.start :: r.tour.rest).countP (fun a => a.job = some j))

/-- The bookkeeping invariant a ruin call maintains relative to the
starting route list `r0`: tours only shrink, start activities are
untouched, the removed set is duplicate-free, and every removed job is
gone from every current tour but was assigned in the starting tours. -/
def RuinInv (r0 routes : List Route) (removed : List Job) : Prop :=
  Shrinks r0 routes ∧
  (∀ i, (routes.get? i).map (fun r => r.tour.start.job) =
        (r0.get? i).map (fun r => r.tour.start.job)) ∧
  removed.Nodup ∧
  (∀ x ∈ removed, (∀ i, x ∉ routeJobsAt routes i) ∧ inTours x r0)

/-- Modelled from the spec: the worst-pick rule as the spec words it —
"skip a random count of the top entries, then take the next entry whose
job is removable".  Used only to compare against `worstPick`, which is
the rule the source implements. -/
def specWorstPick (savings : List (Job × ℚ)) (canRem : Job → Bool) (skip : ℕ) :
    Option (Job × ℚ) :=
  (savings.drop skip).find? (fun jc => canRem jc.1)

/-! ### Concrete instances used by counterexamples and witnesses -/

/-- The all-zero Random stream: every draw takes the lower bound. -/
def rngZero : Rng := ⟨fun _ => 0⟩

/-- The all-one-half Random stream. -/
def rngHalf : Rng := ⟨fun _ => 1 / 2⟩

/-- A job activity at a location. -/
def actJ (j : Job) (loc : ℤ) : Activity := ⟨some j, loc, 0⟩

/-- A job-less activity (start or terminal) at a location. -/
def actN (loc : ℤ) : Activity := ⟨none, loc, 0⟩

/-- A problem with no neighbours and transport cost
`(from * to : ℚ)` — enough to produce distinct savings. -/
def exProb : Problem := ⟨fun _ _ => [], fun _ a b _ => ((a * b : ℤ) : ℚ)⟩

/-- The five-job tour [A, B, C, D, E] of the C8 scenario, jobs 1..5. -/
def tour8 : Tour :=
  ⟨actN 0, [actJ 1 1, actJ 2 2, actJ 3 3, actJ 4 4, actJ 5 5]⟩

/-- One route with jobs J1, J2, J3 followed by a terminal: savings are
J1 = 2, J2 = 5, J3 = 10 under `exProb`, so the descending savings order is
[J3, J2, J1]. -/
def sol5 : SolutionCtx :=
  ⟨[⟨0, 0, ⟨actN 0, [actJ 1 1, actJ 2 2, actJ 3 3, actN 4]⟩⟩], [], [3], []⟩

/-- Worst-Job configuration with worst_skip = 1 and min = max = 1. -/
def cfg5 : WjrCfg := ⟨1, 1, 32, 1⟩

/-- One route holding a single job J1 (then a terminal). -/
def sol4 : SolutionCtx := ⟨[⟨0, 0, ⟨actN 0, [actJ 1 1, actN 2]⟩⟩], [], [], []⟩

/-- Worst-Job configuration with min = max = 0, accepted by the
constructor. -/
def cfg4 : WjrCfg := ⟨0, 0, 32, 0⟩

/-- Two routes, one job each (J1 and J2), each followed by a terminal. -/
def sol3 : SolutionCtx :=
  ⟨[⟨0, 0, ⟨actN 0, [actJ 1 1, actN 2]⟩⟩, ⟨1, 1, ⟨actN 0, [actJ 2 3, actN 4]⟩⟩],
   [], [], []⟩

/-- Worst-Job configuration with threshold 0 and min = max = 1: exactly
one route is processed before the loop stops. -/
def cfg3 : WjrCfg := ⟨1, 1, 0, 0⟩

/-- A solution with no job-bearing activity at all, but whose single tour
has three activities, so the savings fold hits a job-less middle. -/
def sol9 : SolutionCtx := ⟨[⟨0, 0, ⟨actN 0, [actN 1, actN 2]⟩⟩], [], [], []⟩

/-- A job-less solution whose single tour is just a start activity. -/
def solE : SolutionCtx := ⟨[⟨0, 0, ⟨actN 0, []⟩⟩], [5], [], []⟩

/-- One route with one job, and job 7 locked (witness solution for the
invariant claims). -/
def solW : SolutionCtx := ⟨[⟨0, 0, ⟨actN 0, [actJ 1 1, actN 2]⟩⟩], [], [7], []⟩

/-! ### Basic lemmas about the random model and the set model -/

theorem frac_nonneg (r : Rng) (k : ℕ) : 0 ≤ r.frac k := by
  by_cases h : 0 ≤ r.vals k ∧ r.vals k < 1
  · simp [Rng.frac, h]
  · simp [Rng.frac, h]

theorem frac_lt_one (r : Rng) (k : ℕ) : r.frac k < 1 := by
  by_cases h : 0 ≤ r.vals k ∧ r.vals k < 1
  · simp [Rng.frac, h]
  · simp [Rng.frac, h]

theorem uniformInt_mem (r : Rng) (k : ℕ) (lo hi : ℤ) (h : lo ≤ hi) :
    lo ≤ uniformInt r k lo hi ∧ uniformInt r k lo hi ≤ hi := by
  unfold uniformInt
  rw [if_neg (not_lt.2 h)]
  have hle : (lo : ℚ) ≤ (hi : ℚ) := by exact_mod_cast h
  have hpos : (0 : ℚ) < (hi : ℚ) - lo + 1 := by linarith
  have hfl : (0 : ℤ) ≤ ⌊r.frac k * ((hi : ℚ) - lo + 1)⌋ :=
    Int.floor_nonneg.2 (mul_nonneg (frac_nonneg r k) (le_of_lt hpos))
  have hfu : ⌊r.frac k * ((hi : ℚ) - lo + 1)⌋ < hi - lo + 1 := by
    rw [Int.floor_lt]
    calc r.frac k * ((hi : ℚ) - lo + 1)
        < 1 * ((hi : ℚ) - lo + 1) :=
          mul_lt_mul_of_pos_right (frac_lt_one r k) hpos
      _ = ((hi - lo + 1 : ℤ) : ℚ) := by push_cast; ring
  omega

theorem uniformInt_one_or_two (r : Rng) (k : ℕ) :
    uniformInt r k 1 2 = 1 ∨ uniformInt r k 1 2 = 2 := by
  have := uniformInt_mem r k 1 2 (by norm_num)
  omega

theorem mem_insertNew {y : ℕ} {l : List ℕ} {x : ℕ} :
    x ∈ insertNew y l ↔ x ∈ l ∨ x = y := by
  unfold insertNew
  split
  · rename_i hy
    exact ⟨Or.inl, fun h => h.elim id (fun e => e ▸ hy)⟩
  · simp [List.mem_append]

theorem self_mem_insertNew (y : ℕ) (l : List ℕ) : y ∈ insertNew y l :=
  mem_insertNew.2 (Or.inr rfl)

theorem insertNew_nodup {y : ℕ} {l : List ℕ} (h : l.Nodup) :
    (insertNew y l).Nodup := by
  unfold insertNew
  split
  · exact h
  · rename_i hy
    rw [List.nodup_append]
    refine ⟨h, List.nodup_singleton y, ?_⟩
    intro a ha hay
    simp only [List.mem_singleton] at hay
    exact hy (hay ▸ ha)

theorem length_insertNew_le (y : ℕ) (l : List ℕ) :
    (insertNew y l).length ≤ l.length + 1 := by
  unfold insertNew
  split
  · omega
  · simp

theorem subset_insertNew (y : ℕ) (l : List ℕ) : l ⊆ insertNew y l :=
  fun _ h => mem_insertNew.2 (Or.inl h)

/-! ### C10: constructor validation of Worst-Job Removal -/

/-- C10: constructing a Worst-Job Removal strategy fails (the constructor
assertion fires) exactly when min > max, before any ruin call runs;
construction succeeds for every configuration with min <= max. -/
theorem wjr_new_min_le_max (threshold worstSkip jmin jmax : ℕ) :
    (jmin ≤ jmax →
      WjrCfg.new threshold worstSkip jmin jmax = some ⟨jmin, jmax, threshold, worstSkip⟩) ∧
    (jmax < jmin → WjrCfg.new threshold worstSkip jmin jmax = none) := by
  unfold WjrCfg.new
  constructor
  · intro h
    rw [if_pos h]
  · intro h
    rw [if_neg (by omega)]

/-- Witness for C10 at the default configuration and at min = 5 > max = 2. -/
theorem wjr_new_min_le_max_check :
    ((1 : ℕ) ≤ 4 ∧ WjrCfg.new 32 4 1 4 = some ⟨1, 4, 32, 4⟩) ∧
    ((2 : ℕ) < 5 ∧ WjrCfg.new 32 4 5 2 = none) :=
  ⟨⟨by decide, (wjr_new_min_le_max 32 4 1 4).1 (by decide)⟩,
   ⟨by decide, (wjr_new_min_le_max 32 4 5 2).2 (by decide)⟩⟩

/-! ### C7: preserved-block cardinality -/

theorem presGo_ge (alpha : ℚ) (rng : Rng) (s t : ℕ) :
    ∀ fuel p k, p ≤ (presGo alpha rng s t p k fuel).1 := by
  intro fuel
  induction fuel with
  | zero => intro p k; simp [presGo]
  | succ n ih =>
    intro p k
    simp only [presGo]
    split
    · split
      · simp
      · exact le_trans (Nat.le_succ p) (ih (p + 1) (k + 1))
    · simp

theorem presGo_le (alpha : ℚ) (rng : Rng) (s t : ℕ) :
    ∀ fuel p k, p ≤ t - s → (presGo alpha rng s t p k fuel).1 ≤ t - s := by
  intro fuel
  induction fuel with
  | zero => intro p k h; simpa [presGo] using h
  | succ n ih =>
    intro p k h
    simp only [presGo]
    split
    · split
      · simpa using h
      · rename_i hlt _
        exact ih (p + 1) (k + 1) (by omega)
    · simpa using h

/-- C7 counterexample: with the string cardinality equal to the tour
cardinality the preserved-block size is 0, not at least 1. -/
theorem preserved_cardinality_zero_cex :
    (preservedCardinality 5 5 (1 / 100) rngZero 0).1 = 0 ∧
    ¬ (1 ≤ (preservedCardinality 5 5 (1 / 100) rngZero 0).1) := by
  decide

/-- C7 amended: the preserved-block size is at least 1 and at most
tourSize - lt whenever lt < tourSize (the growth loop runs while
lt + preserved < tourSize); when lt = tourSize it is 0. -/
theorem preserved_cardinality_bounds (s t : ℕ) (alpha : ℚ) (rng : Rng) (k : ℕ) :
    (s < t →
      1 ≤ (preservedCardinality s t alpha rng k).1 ∧
      (preservedCardinality s t alpha rng k).1 ≤ t - s) ∧
    (s = t → (preservedCardinality s t alpha rng k).1 = 0) := by
  constructor
  · intro h
    unfold preservedCardinality
    rw [if_neg (by omega)]
    exact ⟨presGo_ge alpha rng s t t 1 k, presGo_le alpha rng s t t 1 k (by omega)⟩
  · intro h
    unfold preservedCardinality
    rw [if_pos h]

/-- Witness for the amended C7 at lt = 3, tourSize = 5 and at
lt = tourSize = 5. -/
theorem preserved_cardinality_bounds_check :
    ((3 : ℕ) < 5 ∧
      1 ≤ (preservedCardinality 3 5 (1 / 100) rngZero 0).1 ∧
      (preservedCardinality 3 5 (1 / 100) rngZero 0).1 ≤ 5 - 3) ∧
    ((5 : ℕ) = 5 ∧ (preservedCardinality 5 5 (1 / 100) rngHalf 0).1 = 0) :=
  ⟨⟨by decide, (preserved_cardinality_bounds 3 5 (1 / 100) rngZero 0).1 (by decide)⟩,
   ⟨rfl, (preserved_cardinality_bounds 5 5 (1 / 100) rngHalf 0).2 rfl⟩⟩

/-! ### C8: the sequential-selection scenario -/

theorem sequentialString_fst (t : Tour) (i c : ℕ) (rng : Rng) (k : ℕ) :
    (sequentialString t i c rng k).1 =
      (List.range c).filterMap
        (fun off => t.jobAt
          ((uniformInt rng k (lowerBounds c t.activityCount i).1
              (lowerBounds c t.activityCount i).2).toNat + off)) :=
  rfl

/-- C8 counterexample: on the scenario tour (seed job C at position 3 of
5, lt = 3) the draw of the lower bound of the start range yields the
block [1, 2, 3], i.e. jobs {A, B, C}, not the claimed [2, 3, 4] and
{B, C, D}. -/
theorem sequential_string_scenario_cex :
    (sequentialString tour8 3 3 rngZero 0).1 = [1, 2, 3] ∧
    ([1, 2, 3] : List Job) ≠ [2, 3, 4] := by
  decide

/-- C8 amended: in the scenario the start of the block is drawn uniformly
from the lower-bounds range [1, 2]; every draw yields either positions
[1, 2, 3] (jobs {A, B, C}) or [2, 3, 4] (jobs {B, C, D}), and the upper
draw realizes the claimed block {B, C, D}. -/
theorem sequential_string_scenario (rng : Rng) (k : ℕ) :
    lowerBounds 3 tour8.activityCount 3 = (1, 2) ∧
    ((sequentialString tour8 3 3 rng k).1 = [1, 2, 3] ∨
     (sequentialString tour8 3 3 rng k).1 = [2, 3, 4]) ∧
    (sequentialString tour8 3 3 rngHalf 0).1 = [2, 3, 4] := by
  refine ⟨by decide, ?_, by decide⟩
  rw [sequentialString_fst]
  rw [show lowerBounds 3 tour8.activityCount 3 = (1, 2) from by decide]
  dsimp only
  rcases uniformInt_one_or_two rng k with h | h
  · left
    rw [h]
    decide
  · right
    rw [h]
    decide

/-! ### C3: determinism and the thread-local shuffle -/

/-- C3 counterexample: the two-route solution, the same Random stream, and
two legitimate thread-rng shuffle outcomes of the (route, savings) list
produce different removed-job sets, so a fixed Random stream does not make
WorstJobRemoval::run reproducible. -/
theorem wjr_thread_shuffle_cex :
    List.Perm [0, 1] (List.range 2) ∧ List.Perm [1, 0] (List.range 2) ∧
    (wjrRun cfg3 exProb sol3 rngZero [0, 1]).map Prod.snd = some [1] ∧
    (wjrRun cfg3 exProb sol3 rngZero [1, 0]).map Prod.snd = some [2] ∧
    (some [1] : Option (List Job)) ≠ some [2] := by
  decide

/-- C3 amended: every decision other than the WorstJobRemoval route
shuffle draws from the Random service stream: AdjustedStringRemoval::run
is a function of the solution and the Random stream alone (the
thread-local RNG is ignored), and WorstJobRemoval::run is a function of
the solution, the Random stream and the shuffle outcome. -/
theorem ruin_random_stream_determinism (cfgA : AsrCfg) (cfgW : WjrCfg)
    (p : Problem) (s : SolutionCtx) (rng : Rng) (t1 t2 perm : List ℕ) :
    asrRun cfgA p s rng t1 = asrRun cfgA p s rng t2 ∧
    wjrRun cfgW p s rng perm = wjrRun cfgW p s rng perm :=
  ⟨rfl, rfl⟩

/-! ### C5: the worst-pick rule -/

theorem filter_get?_split {α : Type} (p : α → Bool) :
    ∀ (l : List α) (n : ℕ) (x : α), (l.filter p).get? n = some x →
      ∃ l1 l2, l = l1 ++ x :: l2 ∧ l1.countP p = n ∧ p x = true := by
  intro l
  induction l with
  | nil => intro n x h; simp at h
  | cons a l ih =>
    intro n x h
    by_cases hpa : p a
    · rw [List.filter_cons_of_pos hpa] at h
      cases n with
      | zero =>
        simp only [List.get?] at h
        obtain rfl : a = x := by injection h
        exact ⟨[], l, rfl, rfl, hpa⟩
      | succ n =>
        simp only [List.get?] at h
        obtain ⟨l1, l2, hsp, hcn, hpx⟩ := ih n x h
        refine ⟨a :: l1, l2, by rw [hsp]; rfl, ?_, hpx⟩
        rw [List.countP_cons, if_pos hpa, hcn]
    · rw [List.filter_cons_of_neg (by simpa using hpa)] at h
      obtain ⟨l1, l2, hsp, hcn, hpx⟩ := ih n x h
      refine ⟨a :: l1, l2, by rw [hsp]; rfl, ?_, hpx⟩
      rw [List.countP_cons, if_neg (by simpa using hpa), hcn]
      omega

/-- C5 counterexample: on the one-route solution with descending savings
[(J3, 10), (J2, 5), (J1, 2)] and J3 locked, skip = 1 makes the source pick
J1 (skip counted among removable entries only) while the spec rule (skip
among the top entries, then next removable) picks J2; the full run removes
J1. -/
theorem worst_pick_filter_order_cex :
    savingsList exProb sol5.routes.enum = some [(0, [(3, 10), (2, 5), (1, 2)])] ∧
    worstPick [(3, 10), (2, 5), (1, 2)] (canRemoveJob sol5) 1 = some (1, 2) ∧
    specWorstPick [(3, 10), (2, 5), (1, 2)] (canRemoveJob sol5) 1 = some (2, 5) ∧
    (wjrRun cfg5 exProb sol5 rngHalf [0]).map Prod.snd = some [1] := by
  decide

/-- C5 amended: the skip is applied after filtering the savings list to
removable entries: the picked worst entry is a removable entry of the
savings list that is preceded by exactly `skip` removable entries (rather
than by `skip` arbitrary top entries). -/
theorem worst_pick_after_filter (savings : List (Job × ℚ)) (canRem : Job → Bool)
    (skip : ℕ) (j : Job) (c : ℚ)
    (h : worstPick savings canRem skip = some (j, c)) :
    canRem j = true ∧ (j, c) ∈ savings ∧
    ∃ l1 l2, savings = l1 ++ (j, c) :: l2 ∧
      l1.countP (fun jc => canRem jc.1) = skip := by
  unfold worstPick at h
  obtain ⟨l1, l2, hsp, hcn, hpx⟩ :=
    filter_get?_split (fun jc => canRem jc.1) savings skip (j, c) h
  refine ⟨hpx, ?_, l1, l2, hsp, hcn⟩
  rw [hsp]
  simp

/-- Witness for the amended C5 at the counterexample instance. -/
theorem worst_pick_after_filter_check :
    canRemoveJob sol5 1 = true ∧
    ((1 : Job), (2 : ℚ)) ∈ [((3 : Job), (10 : ℚ)), (2, 5), (1, 2)] ∧
    ∃ l1 l2, [((3 : Job), (10 : ℚ)), (2, 5), (1, 2)] = l1 ++ (1, 2) :: l2 ∧
      l1.countP (fun jc => canRemoveJob sol5 jc.1) = 1 :=
  worst_pick_after_filter [(3, 10), (2, 5), (1, 2)] (canRemoveJob sol5) 1 1 2
    (by decide)

/-! ### C4: the per-seed removal budget -/

theorem wjrChainStep_removed_eq (rjIdx : Job → Option ℕ) (st : WjrState) (j : Job) :
    (wjrChainStep rjIdx st j).removed = st.removed ∨
      (wjrChainStep rjIdx st j).removed = insertNew j st.removed := by
  unfold wjrChainStep
  split
  · exact Or.inl rfl
  · split
    · exact Or.inl rfl
    · dsimp only
      split
      · exact Or.inr rfl
      · exact Or.inl rfl

theorem wjrChainStep_removed_mem (rjIdx : Job → Option ℕ) (st : WjrState)
    (j x : Job) (h : x ∈ (wjrChainStep rjIdx st j).removed) :
    x ∈ st.removed ∨ (x = j ∧ (rjIdx j).isSome) := by
  unfold wjrChainStep at h
  split at h
  · exact Or.inl h
  · rename_i i heq
    split at h
    · exact Or.inl h
    · dsimp only at h
      split at h
      · rcases mem_insertNew.1 h with h | rfl
        · exact Or.inl h
        · exact Or.inr ⟨rfl, by rw [heq]; rfl⟩
      · exact Or.inl h

theorem wjrRemoveChain_removed_len (rjIdx : Job → Option ℕ) :
    ∀ (chain : List Job) (st : WjrState),
      (wjrRemoveChain rjIdx chain st).removed.length ≤
        st.removed.length + chain.length := by
  intro chain
  induction chain with
  | nil => intro st; simp [wjrRemoveChain]
  | cons j rest ih =>
    intro st
    have hstep := wjrChainStep_removed_eq rjIdx st j
    have hrec := ih (wjrChainStep rjIdx st j)
    have hlen : (wjrChainStep rjIdx st j).removed.length ≤ st.removed.length + 1 := by
      rcases hstep with h | h
      · rw [h]; omega
      · rw [h]; exact length_insertNew_le j st.removed
    calc (wjrRemoveChain rjIdx (j :: rest) st).removed.length
        = (wjrRemoveChain rjIdx rest (wjrChainStep rjIdx st j)).removed.length := rfl
      _ ≤ (wjrChainStep rjIdx st j).removed.length + rest.length := hrec
      _ ≤ st.removed.length + (j :: rest).length := by
          simp only [List.length_cons]; omega

theorem wjrRemoveChain_removed_mem (rjIdx : Job → Option ℕ) :
    ∀ (chain : List Job) (st : WjrState) (x : Job),
      x ∈ (wjrRemoveChain rjIdx chain st).removed →
      x ∈ st.removed ∨ (x ∈ chain ∧ (rjIdx x).isSome) := by
  intro chain
  induction chain with
  | nil => intro st x h; exact Or.inl h
  | cons j rest ih =>
    intro st x h
    have hrec := ih (wjrChainStep rjIdx st j) x h
    rcases hrec with hmem | ⟨hin, hidx⟩
    · rcases wjrChainStep_removed_mem rjIdx st j x hmem with hmem | ⟨rfl, hidx⟩
      · exact Or.inl hmem
      · exact Or.inr ⟨List.mem_cons_self _ _, hidx⟩
    · exact Or.inr ⟨List.mem_cons_of_mem j hin, hidx⟩

/-- C4 counterexample: a configuration with min = max = 0 is accepted by
the constructor; on a solution where the worst pick selects job J1 the
drawn budget is 0, the seed itself is kept, and the run removes nothing.
The seed draw counts the seed against the [min, max] budget, so "removes
that job" fails. -/
theorem wjr_seed_not_removed_cex :
    WjrCfg.new 32 0 0 0 = some cfg4 ∧
    savingsList exProb sol4.routes.enum = some [(0, [(1, 2)])] ∧
    worstPick [(1, 2)] (canRemoveJob sol4) 0 = some (1, 2) ∧
    wjrRun cfg4 exProb sol4 rngZero [0] = some (sol4, []) := by
  decide

/-- C4 amended: per selected worst job the strategy removes the first
`budget` removable entries of the seed-then-neighbours chain, where
`budget` is drawn from [min, max] and counts the seed itself: at most
`max` jobs are removed per seed in total (hence at most max - 1 neighbours
beyond the seed, and the seed is kept when the draw is 0), and every newly
removed job was found in the pre-computed route index and is removable. -/
theorem wjr_step_seed_budget (cfg : WjrCfg) (p : Problem) (canRem : Job → Bool)
    (rjIdx : Job → Option ℕ) (rng : Rng) (profile : ℕ)
    (savings : List (Job × ℚ)) (st : WjrState) (h : cfg.jmin ≤ cfg.jmax) :
    (wjrStep cfg p canRem rjIdx rng profile savings st).removed.length ≤
      st.removed.length + cfg.jmax ∧
    ∀ x ∈ (wjrStep cfg p canRem rjIdx rng profile savings st).removed,
      x ∈ st.removed ∨ ((rjIdx x).isSome ∧ canRem x = true) := by
  unfold wjrStep
  dsimp only
  split
  · exact ⟨Nat.le_add_right st.removed.length cfg.jmax, fun x hx => Or.inl hx⟩
  · rename_i pair j c hw
    have hb := uniformInt_mem rng (st.k + 1) (cfg.jmin : ℤ) (cfg.jmax : ℤ)
      (by exact_mod_cast h)
    have hbud : (uniformInt rng (st.k + 1) (cfg.jmin : ℤ) (cfg.jmax : ℤ)).toNat ≤
        cfg.jmax := Int.toNat_le.2 hb.2
    have hchain :
        (((j :: p.neighbors profile j).filter canRem).take
            (uniformInt rng (st.k + 1) (cfg.jmin : ℤ) (cfg.jmax : ℤ)).toNat).length ≤
          cfg.jmax := by
      rw [List.length_take]
      exact le_trans (min_le_left _ _) hbud
    constructor
    · have hlen := wjrRemoveChain_removed_len rjIdx
        (((j :: p.neighbors profile j).filter canRem).take
          (uniformInt rng (st.k + 1) (cfg.jmin : ℤ) (cfg.jmax : ℤ)).toNat)
        { st with k := st.k + 1 + 1 }
      dsimp only at hlen
      omega
    · intro x hx
      have hmem := wjrRemoveChain_removed_mem rjIdx
        (((j :: p.neighbors profile j).filter canRem).take
          (uniformInt rng (st.k + 1) (cfg.jmin : ℤ) (cfg.jmax : ℤ)).toNat)
        { st with k := st.k + 1 + 1 } x hx
      rcases hmem with hmem | ⟨hin, hidx⟩
      · exact Or.inl hmem
      · have hx2 := List.mem_of_mem_take hin
        exact Or.inr ⟨hidx, (List.mem_filter.1 hx2).2⟩

/-- Witness for the amended C4 at the C5 scenario solution. -/
theorem wjr_step_seed_budget_check :
    cfg5.jmin ≤ cfg5.jmax ∧
    ((wjrStep cfg5 exProb (canRemoveJob sol5) (routeJobsIdx sol5.routes) rngHalf 0
        [(3, 10), (2, 5), (1, 2)] ⟨sol5.routes, [], 0⟩).removed.length ≤
      (⟨sol5.routes, [], 0⟩ : WjrState).removed.length + cfg5.jmax ∧
    ∀ x ∈ (wjrStep cfg5 exProb (canRemoveJob sol5) (routeJobsIdx sol5.routes)
        rngHalf 0 [(3, 10), (2, 5), (1, 2)] ⟨sol5.routes, [], 0⟩).removed,
      x ∈ (⟨sol5.routes, [], 0⟩ : WjrState).removed ∨
        ((routeJobsIdx sol5.routes x).isSome ∧ canRemoveJob sol5 x = true)) :=
  ⟨by decide,
   wjr_step_seed_budget cfg5 exProb (canRemoveJob sol5) (routeJobsIdx sol5.routes)
     rngHalf 0 [(3, 10), (2, 5), (1, 2)] ⟨sol5.routes, [], 0⟩ (by decide)⟩

/-! ### C6: at most ks distinct routes are touched -/

theorem processCandidate_touched (lsmax : ℕ) (alpha : ℚ) (locked : List Job)
    (rng : Rng) (st : AsrState) (j : Job) :
    (processCandidate lsmax alpha locked rng st j).touched = st.touched ∨
    ∃ a, (processCandidate lsmax alpha locked rng st j).touched =
      insertNew a st.touched := by
  unfold processCandidate
  split
  · exact Or.inl rfl
  · split
    · exact Or.inl rfl
    · dsimp only
      split
      · exact Or.inl rfl
      · exact Or.inr ⟨_, rfl⟩

theorem asrGo_touched_le (lsmax ks : ℕ) (alpha : ℚ) (locked : List Job)
    (rng : Rng) :
    ∀ (cands : List Job) (st : AsrState), st.touched.length ≤ ks →
      (asrGo lsmax ks alpha locked rng cands st).touched.length ≤ ks := by
  intro cands
  induction cands with
  | nil => intro st h; exact h
  | cons j rest ih =>
    intro st h
    simp only [asrGo]
    split
    · exact ih st h
    · split
      · exact h
      · rename_i hne
        apply ih
        rcases processCandidate_touched lsmax alpha locked rng st j with
          heq | ⟨a, heq⟩
        · rw [heq]; exact h
        · rw [heq]
          have := length_insertNew_le a st.touched
          omega

/-- C6: during one AdjustedStringRemoval call the touched-actor set has at
most ks members at every point: after processing any prefix of the
candidate sequence, and in the final state.  Each processed candidate
removes a string from one untouched route found by actor, so the strings
of a call come from at most ks distinct routes. -/
theorem asr_touched_at_most_ks (cfg : AsrCfg) (p : Problem) (s : SolutionCtx)
    (rng : Rng) (n : ℕ) :
    (asrGo (asrSetup cfg p s rng).1.1 (asrSetup cfg p s rng).1.2 cfg.alpha
        s.locked rng ((asrSetup cfg p s rng).2.1.take n)
        ⟨s.routes, [], [], (asrSetup cfg p s rng).2.2⟩).touched.length ≤
      (asrSetup cfg p s rng).1.2 ∧
    (asrFinal cfg p s rng).touched.length ≤ (asrSetup cfg p s rng).1.2 := by
  constructor
  · exact asrGo_touched_le _ _ cfg.alpha s.locked rng _ _ (Nat.zero_le _)
  · exact asrGo_touched_le _ _ cfg.alpha s.locked rng _ _ (Nat.zero_le _)

/-! ### C9: no-op on job-less solutions -/

theorem seedScan_none (routes : List Route) (rng : Rng) (r0 : ℕ)
    (hjob : ∀ r ∈ routes, r.tour.jobs = []) :
    ∀ (ts : List ℕ) (k : ℕ), seedScan routes rng r0 ts k = (none, k) := by
  intro ts
  induction ts with
  | nil => intro k; rfl
  | cons t ts ih =>
    intro k
    simp only [seedScan]
    split
    · rfl
    · rename_i r hg
      have hr : r ∈ routes := List.get?_mem hg
      have hh : r.tour.hasJobs = false := by
        simp [Tour.hasJobs, hjob r hr]
      rw [hh]
      simp only [Bool.false_eq_true, if_false]
      exact ih k

theorem selectSeedJobs_empty (p : Problem) (routes : List Route) (rng : Rng)
    (k : ℕ) (hjob : ∀ r ∈ routes, r.tour.jobs = []) :
    (selectSeedJobs p routes rng k).1 = [] := by
  by_cases h0 : routes.length = 0
  · unfold selectSeedJobs selectSeedJob
    rw [if_pos h0]
  · unfold selectSeedJobs selectSeedJob
    rw [if_neg h0, seedScan_none routes rng _ hjob _ _]

theorem asrRun_jobless (cfg : AsrCfg) (p : Problem) (s : SolutionCtx)
    (rng : Rng) (trng : List ℕ) (hjob : ∀ r ∈ s.routes, r.tour.jobs = []) :
    asrRun cfg p s rng trng = (s, []) := by
  obtain ⟨routes, required, locked, unassigned⟩ := s
  have hc := selectSeedJobs_empty p routes rng
    (calculateLimits cfg routes rng 0).2 (by simpa using hjob)
  unfold asrRun asrFinal asrSetup
  dsimp only
  rw [hc]
  simp only [asrGo, List.append_nil]

theorem windows3_short (l : List Activity) (h : l.length ≤ 2) :
    windows3 l = [] := by
  cases l with
  | nil => rfl
  | cons a t =>
    cases t with
    | nil => rfl
    | cons b t2 =>
      cases t2 with
      | nil => rfl
      | cons c t3 => simp at h

theorem routeSavings_short (p : Problem) (r : Route)
    (h : r.tour.rest.length ≤ 1) : routeSavings p r = some [] := by
  unfold routeSavings
  rw [windows3_short _ (by simp; omega)]
  rfl

theorem savingsList_all_nil (p : Problem) :
    ∀ (l : List (ℕ × Route)), (∀ x ∈ l, routeSavings p x.2 = some []) →
      savingsList p l = some (l.map (fun x => (x.1, ([] : List (Job × ℚ))))) := by
  intro l
  induction l with
  | nil => intro _; rfl
  | cons a t ih =>
    intro h
    obtain ⟨i, r⟩ := a
    simp only [savingsList]
    rw [h ⟨i, r⟩ (List.mem_cons_self _ _), ih (fun x hx => h x (List.mem_cons_of_mem _ hx))]
    rfl

theorem mem_applyPerm {α : Type} {l : List α} {perm : List ℕ} {x : α}
    (h : x ∈ applyPerm l perm) : x ∈ l := by
  unfold applyPerm at h
  obtain ⟨i, _, hg⟩ := List.mem_filterMap.1 h
  exact List.get?_mem hg

theorem wjrGo_nil_savings (cfg : WjrCfg) (p : Problem) (canRem : Job → Bool)
    (rjIdx : Job → Option ℕ) (rng : Rng) (routes0 : List Route) :
    ∀ (pairs : List (ℕ × List (Job × ℚ))) (st : WjrState),
      (∀ x ∈ pairs, x.2 = ([] : List (Job × ℚ))) →
      (wjrGo cfg p canRem rjIdx rng routes0 pairs st).routes = st.routes ∧
      (wjrGo cfg p canRem rjIdx rng routes0 pairs st).removed = st.removed := by
  intro pairs
  induction pairs with
  | nil => intro st _; exact ⟨rfl, rfl⟩
  | cons a t ih =>
    intro st h
    obtain ⟨i, sv⟩ := a
    have hsv : sv = [] := h ⟨i, sv⟩ (List.mem_cons_self _ _)
    subst hsv
    simp only [wjrGo]
    split
    · exact ih _ (fun x hx => h x (List.mem_cons_of_mem _ hx))
    · exact ⟨rfl, rfl⟩

theorem wjrRun_short_tours (cfg : WjrCfg) (p : Problem) (s : SolutionCtx)
    (rng : Rng) (perm : List ℕ)
    (hshort : ∀ r ∈ s.routes, r.tour.rest.length ≤ 1) :
    wjrRun cfg p s rng perm = some (s, []) := by
  obtain ⟨routes, required, locked, unassigned⟩ := s
  have hs : savingsList p routes.enum =
      some (routes.enum.map (fun x => (x.1, ([] : List (Job × ℚ))))) := by
    apply savingsList_all_nil
    intro x hx
    obtain ⟨i, r⟩ := x
    obtain ⟨hi, hr⟩ := List.mem_enum hx
    apply routeSavings_short
    apply hshort
    show r ∈ routes
    rw [hr]
    exact List.getElem_mem _
  unfold wjrRun
  rw [hs]
  dsimp only
  have hgo := wjrGo_nil_savings cfg p (canRemoveJob ⟨routes, required, locked, unassigned⟩)
    (routeJobsIdx routes) rng routes
    (applyPerm (routes.enum.map (fun x => (x.1, ([] : List (Job × ℚ))))) perm)
    ⟨routes, [], 0⟩
    (by
      intro x hx
      have hx2 := mem_applyPerm hx
      obtain ⟨y, _, hy⟩ := List.mem_map.1 hx2
      rw [← hy])
  rw [hgo.1, hgo.2]
  simp only [List.append_nil]

/-- C9 counterexample: a solution with no job-bearing activity whose tour
still has three activities makes the Worst-Job savings fold hit a window
whose middle activity has no bound job — the source panics ("Unexpected
activity without job") instead of returning the input unchanged. -/
theorem wjr_jobless_panic_cex :
    (∀ r ∈ sol9.routes, r.tour.jobs = []) ∧
    wjrRun WjrCfg.defaultCfg exProb sol9 rngZero [0] = none := by
  decide

/-- C9 amended: a ruin call on a solution with no job-bearing activity
returns the input unchanged with an empty removed set — unconditionally
for Adjusted String Removal, and for Worst-Job Removal provided every
tour is too short to form a 3-activity window (otherwise its savings
computation panics on an activity without a job). -/
theorem ruin_noop_on_jobless (cfgA : AsrCfg) (cfgW : WjrCfg) (p : Problem)
    (s : SolutionCtx) (rng : Rng) (trng perm : List ℕ)
    (hjob : ∀ r ∈ s.routes, r.tour.jobs = []) :
    asrRun cfgA p s rng trng = (s, []) ∧
    ((∀ r ∈ s.routes, r.tour.rest.length ≤ 1) →
      wjrRun cfgW p s rng perm = some (s, [])) :=
  ⟨asrRun_jobless cfgA p s rng trng hjob,
   fun hshort => wjrRun_short_tours cfgW p s rng perm hshort⟩

/-- Witness for the amended C9 at a one-route job-less solution. -/
theorem ruin_noop_on_jobless_check :
    (∀ r ∈ solE.routes, r.tour.jobs = []) ∧
    asrRun AsrCfg.default exProb solE rngZero [] = (solE, []) ∧
    wjrRun WjrCfg.defaultCfg exProb solE rngZero [0] = some (solE, []) :=
  ⟨by decide,
   (ruin_noop_on_jobless AsrCfg.default WjrCfg.defaultCfg exProb solE rngZero
     [] [0] (by decide)).1,
   (ruin_noop_on_jobless AsrCfg.default WjrCfg.defaultCfg exProb solE rngZero
     [] [0] (by decide)).2 (by decide)⟩

/-! ### C1: locked jobs are never removed -/

theorem countJob_removeJob (t : Tour) (x j : Job) (hne : j ≠ x) :
    (((t.removeJob x).1).start :: ((t.removeJob x).1).rest).countP
        (fun a => a.job = some j) =
      (t.start :: t.rest).countP (fun a => a.job = some j) := by
  simp only [Tour.removeJob]
  rw [List.countP_cons, List.countP_cons, List.countP_filter]
  congr 1
  apply List.countP_congr
  intro a _
  by_cases hja : a.job = some j
  · simp [hja, hne]
  · simp [hja]

theorem routeJobCounts_set (j : Job) (routes : List Route) (ri : ℕ)
    (r r2 : Route) (hg : routes.get? ri = some r)
    (hcount :
      (r2.tour.start :: r2.tour.rest).countP (fun a => a.job = some j) =
      (r.tour.start :: r.tour.rest).countP (fun a => a.job = some j)) :
    routeJobCounts j (routes.set ri r2) = routeJobCounts j routes := by
  apply List.ext_get?
  intro n
  unfold routeJobCounts
  rw [List.get?_map, List.get?_map]
  by_cases hn : ri = n
  · subst hn
    rw [List.get?_set_eq, hg]
    simp [hcount]
  · rw [List.get?_set_ne _ _ hn]

theorem removeString_keeps (j : Job) (ri : ℕ) :
    ∀ (toRemove : List Job) (routes : List Route) (removed : List Job),
      (∀ x ∈ toRemove, x ≠ j) → j ∉ removed →
      routeJobCounts j (removeStringFromRoute ri toRemove routes removed).1 =
        routeJobCounts j routes ∧
      j ∉ (removeStringFromRoute ri toRemove routes removed).2 := by
  intro toRemove
  induction toRemove with
  | nil => intro routes removed _ hrem; exact ⟨rfl, hrem⟩
  | cons x rest ih =>
    intro routes removed hne hrem
    have heq : removeStringFromRoute ri (x :: rest) routes removed =
        removeStringFromRoute ri rest (removeStep ri (routes, removed) x).1
          (removeStep ri (routes, removed) x).2 := rfl
    rw [heq]
    have hxj : x ≠ j := hne x (List.mem_cons_self _ _)
    have hstep1 : routeJobCounts j (removeStep ri (routes, removed) x).1 =
        routeJobCounts j routes := by
      unfold removeStep
      split
      · rfl
      · rename_i r hg
        exact routeJobCounts_set j routes ri r _ hg
          (countJob_removeJob r.tour x j (Ne.symm hxj))
    have hstep2 : j ∉ (removeStep ri (routes, removed) x).2 := by
      unfold removeStep
      split
      · exact hrem
      · intro hmem
        rcases mem_insertNew.1 hmem with hmem | hjx
        · exact hrem hmem
        · exact hxj hjx.symm
    obtain ⟨hc, hm⟩ := ih (removeStep ri (routes, removed) x).1
      (removeStep ri (routes, removed) x).2
      (fun y hy => hne y (List.mem_cons_of_mem _ hy)) hstep2
    exact ⟨hc.trans hstep1, hm⟩

theorem not_mem_of_contains_false {l : List ℕ} {x : ℕ}
    (h : l.contains x = false) : x ∉ l := by
  simpa using h

theorem selectString_locked_ne (locked : List Job) (j : Job) (hj : j ∈ locked)
    (l : List Job) :
    ∀ x ∈ l.filter (fun x => !(locked.contains x)), x ≠ j := by
  intro x hx
  have h2 := (List.mem_filter.1 hx).2
  rw [Bool.not_eq_eq_eq_not, Bool.not_true] at h2
  intro hxj
  exact not_mem_of_contains_false h2 (hxj ▸ hj)

theorem processCandidate_locked (lsmax : ℕ) (alpha : ℚ) (locked : List Job)
    (rng : Rng) (st : AsrState) (c j : Job) (hj : j ∈ locked)
    (hrem : j ∉ st.removed) :
    routeJobCounts j (processCandidate lsmax alpha locked rng st c).routes =
      routeJobCounts j st.routes ∧
    j ∉ (processCandidate lsmax alpha locked rng st c).removed := by
  unfold processCandidate
  split
  · exact ⟨rfl, hrem⟩
  · split
    · exact ⟨rfl, hrem⟩
    · dsimp only
      split
      · exact ⟨rfl, hrem⟩
      · exact removeString_keeps j _ _ st.routes st.removed
          (selectString_locked_ne locked j hj _) hrem

theorem asrGo_locked (lsmax ks : ℕ) (alpha : ℚ) (locked : List Job) (rng : Rng)
    (j : Job) (hj : j ∈ locked) :
    ∀ (cands : List Job) (st : AsrState), j ∉ st.removed →
      routeJobCounts j (asrGo lsmax ks alpha locked rng cands st).routes =
        routeJobCounts j st.routes ∧
      j ∉ (asrGo lsmax ks alpha locked rng cands st).removed := by
  intro cands
  induction cands with
  | nil => intro st hrem; exact ⟨rfl, hrem⟩
  | cons c rest ih =>
    intro st hrem
    simp only [asrGo]
    split
    · exact ih st hrem
    · split
      · exact ⟨rfl, hrem⟩
      · obtain ⟨hc1, hm1⟩ := processCandidate_locked lsmax alpha locked rng st c j hj hrem
        obtain ⟨hc2, hm2⟩ := ih (processCandidate lsmax alpha locked rng st c) hm1
        exact ⟨hc2.trans hc1, hm2⟩

theorem wjrChain_keeps (rjIdx : Job → Option ℕ) (j : Job) :
    ∀ (chain : List Job) (st : WjrState),
      (∀ x ∈ chain, x ≠ j) → j ∉ st.removed →
      routeJobCounts j (wjrRemoveChain rjIdx chain st).routes =
        routeJobCounts j st.routes ∧
      j ∉ (wjrRemoveChain rjIdx chain st).removed := by
  intro chain
  induction chain with
  | nil => intro st _ hrem; exact ⟨rfl, hrem⟩
  | cons x rest ih =>
    intro st hne hrem
    have hxj : x ≠ j := hne x (List.mem_cons_self _ _)
    have hstep1 : routeJobCounts j (wjrChainStep rjIdx st x).routes =
        routeJobCounts j st.routes := by
      unfold wjrChainStep
      split
      · rfl
      · split
        · rfl
        · rename_i r hg
          exact routeJobCounts_set j st.routes _ r _ hg
            (countJob_removeJob r.tour x j (Ne.symm hxj))
    have hstep2 : j ∉ (wjrChainStep rjIdx st x).removed := by
      intro hmem
      rcases wjrChainStep_removed_mem rjIdx st x j hmem with hmem | ⟨hjx, _⟩
      · exact hrem hmem
      · exact hxj hjx.symm
    obtain ⟨hc, hm⟩ := ih (wjrChainStep rjIdx st x)
      (fun y hy => hne y (List.mem_cons_of_mem _ hy)) hstep2
    exact ⟨hc.trans hstep1, hm⟩

theorem wjrStep_locked (cfg : WjrCfg) (p : Problem) (canRem : Job → Bool)
    (rjIdx : Job → Option ℕ) (rng : Rng) (profile : ℕ)
    (savings : List (Job × ℚ)) (st : WjrState) (j : Job)
    (hcr : ∀ x, canRem x = true → x ≠ j) (hrem : j ∉ st.removed) :
    routeJobCounts j (wjrStep cfg p canRem rjIdx rng profile savings st).routes =
      routeJobCounts j st.routes ∧
    j ∉ (wjrStep cfg p canRem rjIdx rng profile savings st).removed := by
  unfold wjrStep
  dsimp only
  split
  · exact ⟨rfl, hrem⟩
  · apply wjrChain_keeps
    · intro x hx
      have hx2 := List.mem_of_mem_take hx
      exact hcr x (List.mem_filter.1 hx2).2
    · exact hrem

theorem wjrGo_locked (cfg : WjrCfg) (p : Problem) (canRem : Job → Bool)
    (rjIdx : Job → Option ℕ) (rng : Rng) (routes0 : List Route) (j : Job)
    (hcr : ∀ x, canRem x = true → x ≠ j) :
    ∀ (pairs : List (ℕ × List (Job × ℚ))) (st : WjrState), j ∉ st.removed →
      routeJobCounts j (wjrGo cfg p canRem rjIdx rng routes0 pairs st).routes =
        routeJobCounts j st.routes ∧
      j ∉ (wjrGo cfg p canRem rjIdx rng routes0 pairs st).removed := by
  intro pairs
  induction pairs with
  | nil => intro st hrem; exact ⟨rfl, hrem⟩
  | cons a t ih =>
    intro st hrem
    obtain ⟨i, sv⟩ := a
    simp only [wjrGo]
    split
    · obtain ⟨hc1, hm1⟩ := wjrStep_locked cfg p canRem rjIdx rng
        (((routes0.get? i).map Route.profile).getD 0) sv st j hcr hrem
      obtain ⟨hc2, hm2⟩ := ih _ hm1
      exact ⟨hc2.trans hc1, hm2⟩
    · exact ⟨rfl, hrem⟩

theorem canRemoveJob_ne_locked (s : SolutionCtx) (j : Job) (hj : j ∈ s.locked) :
    ∀ x, canRemoveJob s x = true → x ≠ j := by
  intro x hx hxj
  unfold canRemoveJob at hx
  rw [Bool.and_eq_true] at hx
  have h2 := hx.1
  rw [Bool.not_eq_eq_eq_not, Bool.not_true] at h2
  exact not_mem_of_contains_false h2 (hxj ▸ hj)

/-- C1: a job in `locked` is never a member of the removed set of either
ruin strategy and is never removed from its tour: its per-route activity
occurrence counts after the call equal those before the call (Adjusted
String Removal filters locked jobs out of every selected string, and
Worst-Job Removal filters every seed and neighbour through
can_remove_job). -/
theorem ruin_locked_jobs_untouched (cfgA : AsrCfg) (cfgW : WjrCfg)
    (p : Problem) (s : SolutionCtx) (rng : Rng) (trng perm : List ℕ)
    (j : Job) (hj : j ∈ s.locked) :
    (j ∉ (asrRun cfgA p s rng trng).2 ∧
      routeJobCounts j (asrRun cfgA p s rng trng).1.routes =
        routeJobCounts j s.routes) ∧
    (∀ out, wjrRun cfgW p s rng perm = some out →
      j ∉ out.2 ∧ routeJobCounts j out.1.routes = routeJobCounts j s.routes) := by
  constructor
  · have hgo := asrGo_locked (asrSetup cfgA p s rng).1.1 (asrSetup cfgA p s rng).1.2
      cfgA.alpha s.locked rng j hj (asrSetup cfgA p s rng).2.1
      ⟨s.routes, [], [], (asrSetup cfgA p s rng).2.2⟩ (List.not_mem_nil j)
    exact ⟨hgo.2, hgo.1⟩
  · intro out hout
    unfold wjrRun at hout
    split at hout
    · exact absurd hout (by simp)
    · rename_i sv hsv
      have hgo := wjrGo_locked cfgW p (canRemoveJob s) (routeJobsIdx s.routes)
        rng s.routes j (canRemoveJob_ne_locked s j hj) (applyPerm sv perm)
        ⟨s.routes, [], 0⟩ (List.not_mem_nil j)
      have hout2 := hout.symm
      injection hout2 with hout3
      rw [hout3]
      exact ⟨hgo.2, hgo.1⟩

/-- Witness for C1: job 7 is locked in the one-job solution and survives
both strategies. -/
theorem ruin_locked_jobs_untouched_check :
    (7 : Job) ∈ solW.locked ∧
    ((7 ∉ (asrRun AsrCfg.default exProb solW rngZero []).2 ∧
      routeJobCounts 7 (asrRun AsrCfg.default exProb solW rngZero []).1.routes =
        routeJobCounts 7 solW.routes) ∧
    (∀ out, wjrRun WjrCfg.defaultCfg exProb solW rngZero [0] = some out →
      7 ∉ out.2 ∧ routeJobCounts 7 out.1.routes = routeJobCounts 7 solW.routes)) :=
  ⟨by decide,
   ruin_locked_jobs_untouched AsrCfg.default WjrCfg.defaultCfg exProb solW
     rngZero [] [0] 7 (by decide)⟩

/-! ### C2: pool conservation -/

theorem routeJobsAt_set_self (routes : List Route) (ri : ℕ) (r r2 : Route)
    (hg : routes.get? ri = some r) :
    routeJobsAt (routes.set ri r2) ri = r2.tour.jobs := by
  unfold routeJobsAt
  rw [List.get?_set_eq, hg]
  rfl

theorem routeJobsAt_set_other (routes : List Route) (ri n : ℕ) (r2 : Route)
    (h : ri ≠ n) :
    routeJobsAt (routes.set ri r2) n = routeJobsAt routes n := by
  unfold routeJobsAt
  rw [List.get?_set_ne _ _ h]

theorem mem_routeJobsAt_of_get (routes : List Route) (ri : ℕ) (r : Route)
    (hg : routes.get? ri = some r) (x : Job) :
    x ∈ routeJobsAt routes ri ↔ x ∈ r.tour.jobs := by
  unfold routeJobsAt
  rw [hg]

theorem jobs_removeJob_subset (t : Tour) (x y : Job)
    (h : y ∈ ((t.removeJob x).1).jobs) : y ∈ t.jobs := by
  unfold Tour.removeJob Tour.jobs at *
  obtain ⟨a, ha, hay⟩ := List.mem_filterMap.1 h
  rcases List.mem_cons.1 ha with heq | ha2
  · exact List.mem_filterMap.2 ⟨a, List.mem_cons.2 (Or.inl heq), hay⟩
  · exact List.mem_filterMap.2
      ⟨a, List.mem_cons_of_mem _ (List.mem_of_mem_filter ha2), hay⟩

theorem not_mem_jobs_removeJob (t : Tour) (x : Job) (hs : t.start.job = none) :
    x ∉ ((t.removeJob x).1).jobs := by
  unfold Tour.removeJob Tour.jobs
  intro h
  obtain ⟨a, ha, hax⟩ := List.mem_filterMap.1 h
  rcases List.mem_cons.1 ha with heq | ha2
  · rw [heq] at hax
    rw [show (⟨t.start, t.rest.filter (fun a => a.job ≠ some x)⟩ : Tour).start = t.start from rfl, hs] at hax
    exact Option.noConfusion hax
  · have := (List.mem_filter.1 ha2).2
    simp only [decide_eq_true_eq] at this
    exact this hax

theorem mem_jobs_removeJob_of_ne (t : Tour) (x y : Job) (hne : y ≠ x)
    (h : y ∈ t.jobs) : y ∈ ((t.removeJob x).1).jobs := by
  unfold Tour.removeJob Tour.jobs at *
  obtain ⟨a, ha, hay⟩ := List.mem_filterMap.1 h
  rcases List.mem_cons.1 ha with heq | ha2
  · exact List.mem_filterMap.2 ⟨a, List.mem_cons.2 (Or.inl heq), hay⟩
  · refine List.mem_filterMap.2 ⟨a, List.mem_cons_of_mem _ ?_, hay⟩
    refine List.mem_filter.2 ⟨ha2, ?_⟩
    simp only [decide_eq_true_eq]
    rw [hay]
    intro hcon
    exact hne (Option.some.inj hcon)

theorem removeJob_snd_mem (t : Tour) (x : Job) (h : (t.removeJob x).2 = true) :
    x ∈ t.jobs := by
  unfold Tour.removeJob at h
  obtain ⟨a, ha, hax⟩ := List.any_eq_true.1 h
  simp only [decide_eq_true_eq] at hax
  exact List.mem_filterMap.2 ⟨a, List.mem_cons_of_mem _ ha, hax⟩

theorem jobAt_mem_jobs (t : Tour) (i : ℕ) (x : Job) (h : t.jobAt i = some x) :
    x ∈ t.jobs := by
  unfold Tour.jobAt Tour.get at h
  split at h
  · exact List.mem_filterMap.2 ⟨t.start, List.mem_cons_self _ _, h⟩
  · cases hg : t.rest.get? (i - 1) with
    | none => rw [hg] at h; exact Option.noConfusion h
    | some a =>
      rw [hg] at h
      exact List.mem_filterMap.2
        ⟨a, List.mem_cons_of_mem _ (List.get?_mem hg), h⟩

theorem selectString_subset (t : Tour) (idx lt : ℕ) (alpha : ℚ) (rng : Rng)
    (k : ℕ) :
    ∀ y ∈ (selectString t idx lt alpha rng k).1, y ∈ t.jobs := by
  intro y hy
  unfold selectString at hy
  split at hy
  · unfold sequentialString at hy
    obtain ⟨off, _, hoff⟩ := List.mem_filterMap.1 hy
    exact jobAt_mem_jobs t _ y hoff
  · unfold preservedString at hy
    obtain ⟨i, _, hi⟩ := List.mem_filterMap.1 hy
    exact jobAt_mem_jobs t _ y hi

theorem uniqueAssign_of_shrinks (r0 r1 : List Route) (hs : Shrinks r0 r1)
    (hu : UniqueAssign r0) : UniqueAssign r1 :=
  fun x i1 i2 h1 h2 => hu x i1 i2 (hs i1 x h1) (hs i2 x h2)

theorem startJobless_of_inv (r0 routes : List Route) (removed : List Job)
    (hSJ : StartsJobless r0) (hInv : RuinInv r0 routes removed) (ri : ℕ)
    (r : Route) (hg : routes.get? ri = some r) : r.tour.start.job = none := by
  have h := hInv.2.1 ri
  rw [hg] at h
  cases hg0 : r0.get? ri with
  | none => rw [hg0] at h; exact Option.noConfusion h
  | some r00 =>
    rw [hg0] at h
    have h2 : r.tour.start.job = r00.tour.start.job := by simpa using h
    rw [h2]
    exact hSJ ri r00 hg0

/-- One removal with insertion into the removed set preserves the run
invariant, given that the removed job either sits in the mutated route or
is already gone from every route (and was initially assigned). -/
theorem ruinInv_remove (r0 : List Route) (hUA : UniqueAssign r0)
    (hSJ : StartsJobless r0) (routes : List Route) (removed : List Job)
    (ri : ℕ) (r : Route) (x : Job) (hInv : RuinInv r0 routes removed)
    (hg : routes.get? ri = some r)
    (hx : x ∈ routeJobsAt routes ri ∨ ∀ i, x ∉ routeJobsAt routes i)
    (hx0 : inTours x r0) :
    RuinInv r0 (routes.set ri { r with tour := (r.tour.removeJob x).1 })
      (insertNew x removed) := by
  obtain ⟨hshr, hst, hnd, hrm⟩ := hInv
  have hshrink_step : ∀ i y,
      y ∈ routeJobsAt (routes.set ri { r with tour := (r.tour.removeJob x).1 }) i →
      y ∈ routeJobsAt routes i := by
    intro i y hy
    by_cases hir : ri = i
    · subst hir
      rw [routeJobsAt_set_self routes ri r _ hg] at hy
      rw [mem_routeJobsAt_of_get routes ri r hg]
      exact jobs_removeJob_subset r.tour x y hy
    · rwa [routeJobsAt_set_other routes ri i _ hir] at hy
  refine ⟨fun i y hy => hshr i y (hshrink_step i y hy), ?_, insertNew_nodup hnd, ?_⟩
  · intro i
    by_cases hir : ri = i
    · subst hir
      have h3 := hst ri
      rw [hg] at h3
      rw [List.get?_set_eq, hg]
      simpa using h3
    · rw [List.get?_set_ne _ _ hir]
      exact hst i
  · intro y hy
    rcases mem_insertNew.1 hy with hy | rfl
    · obtain ⟨habs, hr0⟩ := hrm y hy
      exact ⟨fun i hmem => habs i (hshrink_step i y hmem), hr0⟩
    · refine ⟨?_, hx0⟩
      intro i hmem
      rcases hx with hx | hx
      · by_cases hir : ri = i
        · subst hir
          rw [routeJobsAt_set_self routes ri r _ hg] at hmem
          exact not_mem_jobs_removeJob r.tour y
            (startJobless_of_inv r0 routes removed hSJ ⟨hshr, hst, hnd, hrm⟩ ri r hg)
            hmem
        · rw [routeJobsAt_set_other routes ri i _ hir] at hmem
          exact hir (uniqueAssign_of_shrinks r0 routes hshr hUA y ri i hx hmem)
      · exact hx i (hshrink_step i y hmem)

/-- One removal without insertion preserves the run invariant. -/
theorem ruinInv_remove_noinsert (r0 : List Route) (routes : List Route)
    (removed : List Job) (ri : ℕ) (r : Route) (x : Job)
    (hInv : RuinInv r0 routes removed) (hg : routes.get? ri = some r) :
    RuinInv r0 (routes.set ri { r with tour := (r.tour.removeJob x).1 })
      removed := by
  obtain ⟨hshr, hst, hnd, hrm⟩ := hInv
  have hshrink_step : ∀ i y,
      y ∈ routeJobsAt (routes.set ri { r with tour := (r.tour.removeJob x).1 }) i →
      y ∈ routeJobsAt routes i := by
    intro i y hy
    by_cases hir : ri = i
    · subst hir
      rw [routeJobsAt_set_self routes ri r _ hg] at hy
      rw [mem_routeJobsAt_of_get routes ri r hg]
      exact jobs_removeJob_subset r.tour x y hy
    · rwa [routeJobsAt_set_other routes ri i _ hir] at hy
  refine ⟨fun i y hy => hshr i y (hshrink_step i y hy), ?_, hnd, ?_⟩
  · intro i
    by_cases hir : ri = i
    · subst hir
      have h3 := hst ri
      rw [hg] at h3
      rw [List.get?_set_eq, hg]
      simpa using h3
    · rw [List.get?_set_ne _ _ hir]
      exact hst i
  · intro y hy
    obtain ⟨habs, hr0⟩ := hrm y hy
    exact ⟨fun i hmem => habs i (hshrink_step i y hmem), hr0⟩

theorem removeStep_inv (r0 : List Route) (hUA : UniqueAssign r0)
    (hSJ : StartsJobless r0) (ri : ℕ) (routes : List Route)
    (removed : List Job) (x : Job) (hInv : RuinInv r0 routes removed)
    (hx : (x ∈ routeJobsAt routes ri ∨ ∀ i, x ∉ routeJobsAt routes i) ∧
      inTours x r0) :
    RuinInv r0 (removeStep ri (routes, removed) x).1
      (removeStep ri (routes, removed) x).2 := by
  unfold removeStep
  dsimp only
  split
  · exact hInv
  · rename_i r hg
    exact ruinInv_remove r0 hUA hSJ routes removed ri r x hInv hg hx.1 hx.2

theorem removeStep_transfer (r0 : List Route) (hUA : UniqueAssign r0)
    (hSJ : StartsJobless r0) (ri : ℕ) (routes : List Route)
    (removed : List Job) (x y : Job) (hInv : RuinInv r0 routes removed)
    (hy : y ∈ routeJobsAt routes ri ∨ ∀ i, y ∉ routeJobsAt routes i) :
    y ∈ routeJobsAt (removeStep ri (routes, removed) x).1 ri ∨
      ∀ i, y ∉ routeJobsAt (removeStep ri (routes, removed) x).1 i := by
  unfold removeStep
  dsimp only
  split
  · exact hy
  · rename_i r hg
    dsimp only
    rcases hy with hy | hy
    · by_cases hxy : y = x
      · subst hxy
        right
        intro i hmem
        by_cases hir : ri = i
        · subst hir
          rw [routeJobsAt_set_self routes ri r _ hg] at hmem
          exact not_mem_jobs_removeJob r.tour y
            (startJobless_of_inv r0 routes removed hSJ hInv ri r hg) hmem
        · rw [routeJobsAt_set_other routes ri i _ hir] at hmem
          exact hir (uniqueAssign_of_shrinks r0 routes hInv.1 hUA y ri i hy hmem)
      · left
        rw [routeJobsAt_set_self routes ri r _ hg]
        rw [mem_routeJobsAt_of_get routes ri r hg] at hy
        exact mem_jobs_removeJob_of_ne r.tour x y hxy hy
    · right
      intro i hmem
      apply hy i
      by_cases hir : ri = i
      · subst hir
        rw [routeJobsAt_set_self routes ri r _ hg] at hmem
        rw [mem_routeJobsAt_of_get routes ri r hg]
        exact jobs_removeJob_subset r.tour x y hmem
      · rwa [routeJobsAt_set_other routes ri i _ hir] at hmem

theorem removeString_inv (r0 : List Route) (hUA : UniqueAssign r0)
    (hSJ : StartsJobless r0) (ri : ℕ) :
    ∀ (toRemove : List Job) (routes : List Route) (removed : List Job),
      RuinInv r0 routes removed →
      (∀ x ∈ toRemove,
        (x ∈ routeJobsAt routes ri ∨ ∀ i, x ∉ routeJobsAt routes i) ∧
        inTours x r0) →
      RuinInv r0 (removeStringFromRoute ri toRemove routes removed).1
        (removeStringFromRoute ri toRemove routes removed).2 := by
  intro toRemove
  induction toRemove with
  | nil => intro routes removed hInv _; exact hInv
  | cons x rest ih =>
    intro routes removed hInv hmem
    have heq : removeStringFromRoute ri (x :: rest) routes removed =
        removeStringFromRoute ri rest (removeStep ri (routes, removed) x).1
          (removeStep ri (routes, removed) x).2 := rfl
    rw [heq]
    apply ih
    · exact removeStep_inv r0 hUA hSJ ri routes removed x hInv
        (hmem x (List.mem_cons_self _ _))
    · intro y hy
      refine ⟨?_, (hmem y (List.mem_cons_of_mem _ hy)).2⟩
      exact removeStep_transfer r0 hUA hSJ ri routes removed x y hInv
        (hmem y (List.mem_cons_of_mem _ hy)).1

theorem processCandidate_inv (r0 : List Route) (hUA : UniqueAssign r0)
    (hSJ : StartsJobless r0) (lsmax : ℕ) (alpha : ℚ) (locked : List Job)
    (rng : Rng) (st : AsrState) (c : Job)
    (hInv : RuinInv r0 st.routes st.removed) :
    RuinInv r0 (processCandidate lsmax alpha locked rng st c).routes
      (processCandidate lsmax alpha locked rng st c).removed := by
  unfold processCandidate
  split
  · exact hInv
  · rename_i ri hfind
    split
    · exact hInv
    · rename_i r hget
      dsimp only
      split
      · exact hInv
      · rename_i idx hidx
        refine removeString_inv r0 hUA hSJ ri _ st.routes st.removed hInv ?_
        intro x hx
        have hx2 : x ∈ r.tour.jobs :=
          selectString_subset r.tour idx _ alpha rng _ x (List.mem_of_mem_filter hx)
        have hx3 : x ∈ routeJobsAt st.routes ri :=
          (mem_routeJobsAt_of_get st.routes ri r hget x).2 hx2
        exact ⟨Or.inl hx3, ⟨ri, hInv.1 ri x hx3⟩⟩

theorem asrGo_inv (r0 : List Route) (hUA : UniqueAssign r0)
    (hSJ : StartsJobless r0) (lsmax ks : ℕ) (alpha : ℚ) (locked : List Job)
    (rng : Rng) :
    ∀ (cands : List Job) (st : AsrState), RuinInv r0 st.routes st.removed →
      RuinInv r0 (asrGo lsmax ks alpha locked rng cands st).routes
        (asrGo lsmax ks alpha locked rng cands st).removed := by
  intro cands
  induction cands with
  | nil => intro st hInv; exact hInv
  | cons c rest ih =>
    intro st hInv
    simp only [asrGo]
    split
    · exact ih st hInv
    · split
      · exact hInv
      · exact ih _ (processCandidate_inv r0 hUA hSJ lsmax alpha locked rng st c hInv)

theorem wjrChainStep_inv (r0 : List Route) (hUA : UniqueAssign r0)
    (hSJ : StartsJobless r0) (rjIdx : Job → Option ℕ) (st : WjrState) (x : Job)
    (hInv : RuinInv r0 st.routes st.removed) :
    RuinInv r0 (wjrChainStep rjIdx st x).routes
      (wjrChainStep rjIdx st x).removed := by
  unfold wjrChainStep
  split
  · exact hInv
  · rename_i i hj
    split
    · exact hInv
    · rename_i r hg
      dsimp only
      by_cases hb : (r.tour.removeJob x).2 = true
      · rw [if_pos hb]
        have hmem : x ∈ routeJobsAt st.routes i :=
          (mem_routeJobsAt_of_get st.routes i r hg x).2 (removeJob_snd_mem r.tour x hb)
        exact ruinInv_remove r0 hUA hSJ st.routes st.removed i r x hInv hg
          (Or.inl hmem) ⟨i, hInv.1 i x hmem⟩
      · rw [if_neg hb]
        exact ruinInv_remove_noinsert r0 st.routes st.removed i r x hInv hg

theorem wjrRemoveChain_inv (r0 : List Route) (hUA : UniqueAssign r0)
    (hSJ : StartsJobless r0) (rjIdx : Job → Option ℕ) :
    ∀ (chain : List Job) (st : WjrState), RuinInv r0 st.routes st.removed →
      RuinInv r0 (wjrRemoveChain rjIdx chain st).routes
        (wjrRemoveChain rjIdx chain st).removed := by
  intro chain
  induction chain with
  | nil => intro st hInv; exact hInv
  | cons x rest ih =>
    intro st hInv
    exact ih (wjrChainStep rjIdx st x)
      (wjrChainStep_inv r0 hUA hSJ rjIdx st x hInv)

theorem wjrStep_inv (r0 : List Route) (hUA : UniqueAssign r0)
    (hSJ : StartsJobless r0) (cfg : WjrCfg) (p : Problem) (canRem : Job → Bool)
    (rjIdx : Job → Option ℕ) (rng : Rng) (profile : ℕ)
    (savings : List (Job × ℚ)) (st : WjrState)
    (hInv : RuinInv r0 st.routes st.removed) :
    RuinInv r0 (wjrStep cfg p canRem rjIdx rng profile savings st).routes
      (wjrStep cfg p canRem rjIdx rng profile savings st).removed := by
  unfold wjrStep
  dsimp only
  split
  · exact hInv
  · exact wjrRemoveChain_inv r0 hUA hSJ rjIdx _ _ hInv

theorem wjrGo_inv (r0 : List Route) (hUA : UniqueAssign r0)
    (hSJ : StartsJobless r0) (cfg : WjrCfg) (p : Problem) (canRem : Job → Bool)
    (rjIdx : Job → Option ℕ) (rng : Rng) (routes0 : List Route) :
    ∀ (pairs : List (ℕ × List (Job × ℚ))) (st : WjrState),
      RuinInv r0 st.routes st.removed →
      RuinInv r0 (wjrGo cfg p canRem rjIdx rng routes0 pairs st).routes
        (wjrGo cfg p canRem rjIdx rng routes0 pairs st).removed := by
  intro pairs
  induction pairs with
  | nil => intro st hInv; exact hInv
  | cons a t ih =>
    intro st hInv
    obtain ⟨i, sv⟩ := a
    simp only [wjrGo]
    split
    · exact ih _ (wjrStep_inv r0 hUA hSJ cfg p canRem rjIdx rng _ sv st hInv)
    · exact hInv

theorem ruinInv_initial (r0 : List Route) : RuinInv r0 r0 [] :=
  ⟨fun _ _ hy => hy, fun _ => rfl, List.nodup_nil,
   fun x hx => absurd hx (List.not_mem_nil x)⟩

theorem ruinInv_conclusions (r0 : List Route) (required : List Job)
    (routes : List Route) (removed : List Job)
    (hInv : RuinInv r0 routes removed)
    (hreq : ∀ y, inTours y r0 → y ∉ required) :
    (required ++ removed).length = required.length + removed.length ∧
    ∀ x ∈ removed, (∀ r ∈ routes, x ∉ r.tour.jobs) ∧
      (required ++ removed).count x = 1 := by
  refine ⟨List.length_append _ _, ?_⟩
  intro x hx
  obtain ⟨habs, hr0⟩ := hInv.2.2.2 x hx
  constructor
  · intro r hr hmem
    obtain ⟨n, hn⟩ := List.get?_of_mem hr
    exact habs n ((mem_routeJobsAt_of_get routes n r hn x).2 hmem)
  · rw [List.count_append]
    rw [List.count_eq_zero_of_not_mem (hreq x hr0)]
    rw [List.count_eq_one_of_mem hInv.2.2.1 hx]

/-- C2: pool conservation for both strategies: the required pool grows by
exactly the removed-set size, every removed job is absent from every tour
afterwards, and occurs exactly once in the required pool afterwards.
The hypotheses are data-model invariants of the starting solution: each
job assigned to at most one route, start activities job-less, and the
required pool disjoint from the assigned jobs. -/
theorem ruin_pool_conservation (cfgA : AsrCfg) (cfgW : WjrCfg) (p : Problem)
    (s : SolutionCtx) (rng : Rng) (trng perm : List ℕ)
    (hUA : UniqueAssign s.routes) (hSJ : StartsJobless s.routes)
    (hreq : ∀ y, inTours y s.routes → y ∉ s.required) :
    ((asrRun cfgA p s rng trng).1.required.length =
        s.required.length + (asrRun cfgA p s rng trng).2.length ∧
      ∀ x ∈ (asrRun cfgA p s rng trng).2,
        (∀ r ∈ (asrRun cfgA p s rng trng).1.routes, x ∉ r.tour.jobs) ∧
        (asrRun cfgA p s rng trng).1.required.count x = 1) ∧
    (∀ out, wjrRun cfgW p s rng perm = some out →
      out.1.required.length = s.required.length + out.2.length ∧
      ∀ x ∈ out.2, (∀ r ∈ out.1.routes, x ∉ r.tour.jobs) ∧
        out.1.required.count x = 1) := by
  constructor
  · have hInv := asrGo_inv s.routes hUA hSJ (asrSetup cfgA p s rng).1.1
      (asrSetup cfgA p s rng).1.2 cfgA.alpha s.locked rng
      (asrSetup cfgA p s rng).2.1 ⟨s.routes, [], [], (asrSetup cfgA p s rng).2.2⟩
      (ruinInv_initial s.routes)
    exact ruinInv_conclusions s.routes s.required _ _ hInv hreq
  · intro out hout
    unfold wjrRun at hout
    split at hout
    · exact absurd hout (by simp)
    · rename_i sv hsv
      have hInv := wjrGo_inv s.routes hUA hSJ cfgW p (canRemoveJob s)
        (routeJobsIdx s.routes) rng s.routes (applyPerm sv perm)
        ⟨s.routes, [], 0⟩ (ruinInv_initial s.routes)
      have hout2 := hout.symm
      injection hout2 with hout3
      rw [hout3]
      exact ruinInv_conclusions s.routes s.required _ _ hInv hreq

/-- Witness for C2 at the one-job solution with an empty required pool. -/
theorem ruin_pool_conservation_check :
    ((asrRun AsrCfg.default exProb solW rngZero []).1.required.length =
        solW.required.length + (asrRun AsrCfg.default exProb solW rngZero []).2.length ∧
      ∀ x ∈ (asrRun AsrCfg.default exProb solW rngZero []).2,
        (∀ r ∈ (asrRun AsrCfg.default exProb solW rngZero []).1.routes, x ∉ r.tour.jobs) ∧
        (asrRun AsrCfg.default exProb solW rngZero []).1.required.count x = 1) ∧
    (∀ out, wjrRun WjrCfg.defaultCfg exProb solW rngZero [0] = some out →
      out.1.required.length = solW.required.length + out.2.length ∧
      ∀ x ∈ out.2, (∀ r ∈ out.1.routes, x ∉ r.tour.jobs) ∧
        out.1.required.count x = 1) :=
  ruin_pool_conservation AsrCfg.default WjrCfg.defaultCfg exProb solW rngZero [] [0]
    (by
      intro x i1 i2 h1 h2
      cases i1 with
      | zero =>
        cases i2 with
        | zero => rfl
        | succ n => exact absurd h2 (List.not_mem_nil x)
      | succ n => exact absurd h1 (List.not_mem_nil x))
    (by
      intro i r h
      cases i with
      | zero =>
        injection h with h2
        rw [← h2]
        rfl
      | succ n => exact Option.noConfusion h)
    (fun y _ => List.not_mem_nil y)

end VrpRuin
